import Mathlib

/-!
Shallow embedding of the asset-transfer chaincode (`chaincode/contract.go`).

The ledger visible to one invocation is modelled as an association list from
keys to stored values; Fabric's composite keys are modelled structurally
(object type plus attribute list), which is faithful to the documented
compound-key codec contract (parts do not contain the reserved delimiter).

Fabric transaction semantics: within one invocation every `GetState` reads the
committed state (Fabric has no read-your-writes), while `PutState`/`DelState`
accumulate a write set that the host applies atomically on commit and discards
on abort.  Accordingly each mutating operation is embedded as a function from
the committed ledger to a result together with the ordered list of write
operations it issued; `applyWrites` is the host's commit.

`json.Marshal`/`json.Unmarshal` on the `Asset` struct are abstracted into a
`StoredValue` type with one constructor for the canonical JSON encoding of an
asset (marshalling an asset always succeeds and round-trips in Go) and one for
raw byte strings (such as the one-byte index marker) which do not decode to an
asset.
-/

namespace Chaincode

/-- The `Asset` struct of the contract, with its Go field names. -/
structure Asset where
  DocType        : String
  ID             : String
  Color          : String
  Size           : Int
  Owner          : String
  AppraisedValue : Int
deriving DecidableEq

/-- Ledger keys: plain state keys, or Fabric composite keys built by
`CreateCompositeKey(objectType, attributes)`. -/
inductive LKey where
  | simple (k : String)
  | composite (objectType : String) (attrs : List String)
deriving DecidableEq

/-- Values stored in the ledger: either the JSON encoding of an asset, or raw
bytes that are not the encoding of any asset (e.g. the `0x00` index marker). -/
inductive StoredValue where
  | assetJson (a : Asset)
  | bytes (bs : List Nat)
deriving DecidableEq

/-- `json.Unmarshal` of a stored value into an `Asset`. -/
def jsonUnmarshalAsset : StoredValue → Option Asset
  | .assetJson a => some a
  | .bytes _ => none

/-- The committed ledger state, as an association list with at most one entry
per key (enforced by `putState`). -/
abbrev Ledger := List (LKey × StoredValue)

/-- `stub.GetState`: `none` models Go's `nil` byte slice (absent key). -/
def getState : Ledger → LKey → Option StoredValue
  | [], _ => none
  | (k', v) :: rest, k => if k' = k then some v else getState rest k

/-- Applying one `PutState` to a ledger (on commit). -/
def putState : Ledger → LKey → StoredValue → Ledger
  | [], k, v => [(k, v)]
  | (k', v') :: rest, k, v =>
      if k' = k then (k, v) :: rest else (k', v') :: putState rest k v

/-- Applying one `DelState` to a ledger (on commit). -/
def delState : Ledger → LKey → Ledger
  | [], _ => []
  | (k', v') :: rest, k =>
      if k' = k then delState rest k else (k', v') :: delState rest k

/-- One entry of an invocation's write set: `some v` is a `PutState`,
`none` a `DelState`. -/
abbrev WriteOp := LKey × Option StoredValue

/-- The host applies one write-set entry on commit. -/
def applyWrite (L : Ledger) : WriteOp → Ledger
  | (k, some v) => putState L k v
  | (k, none) => delState L k

/-- The host commits a whole write set, in order. -/
def applyWrites (L : Ledger) (ws : List WriteOp) : Ledger :=
  ws.foldl applyWrite L

/-- Error taxonomy of the contract (each Go error, abstracted). -/
inductive CCError where
  /-- wrap of an underlying ledger-access failure -/
  | ledgerErr (msg : String)
  /-- `asset already exists: <id>` -/
  | conflict (id : String)
  /-- `asset <id> does not exist` -/
  | notFound (id : String)
  /-- `json.Unmarshal` failure on the value stored under the given key -/
  | serialization (key : String)
  /-- `ptypes.Timestamp` failure on an out-of-range protobuf timestamp -/
  | badTimestamp (seconds nanos : Int)
deriving DecidableEq

/-- The `index` constant of the contract. -/
def index : String := "color~name"

/-- `AssetExists`: a point existence probe on the committed state. -/
def AssetExists (L : Ledger) (assetID : String) : Except CCError Bool :=
  .ok (getState L (.simple assetID)).isSome

/-- `ReadAsset`: `GetState` then `json.Unmarshal`; performs no writes. -/
def ReadAsset (L : Ledger) (assetID : String) : Except CCError Asset :=
  match getState L (.simple assetID) with
  | none => .error (.notFound assetID)
  | some v =>
    match jsonUnmarshalAsset v with
    | none => .error (.serialization assetID)
    | some asset => .ok asset

/-- `CreateAsset`: existence probe, then a `PutState` of the asset record and a
`PutState` of the one-byte `color~name` index marker. -/
def CreateAsset (L : Ledger) (assetID color : String) (size : Int)
    (owner : String) (appraisedValue : Int) : Except CCError Unit × List WriteOp :=
  match AssetExists L assetID with
  | .error _ => (.error (.ledgerErr "failed to get asset"), [])
  | .ok true => (.error (.conflict assetID), [])
  | .ok false =>
    let asset : Asset :=
      { DocType := "asset", ID := assetID, Color := color, Size := size
        Owner := owner, AppraisedValue := appraisedValue }
    let w1 : WriteOp := (.simple assetID, some (.assetJson asset))
    let colorNameIndexKey : LKey := .composite index [asset.Color, asset.ID]
    let w2 : WriteOp := (colorNameIndexKey, some (.bytes [0x00]))
    (.ok (), [w1, w2])

/-- `DeleteAsset`: read first (the index key can only be derived from the
just-read asset's color), then `DelState` the record and the index entry. -/
def DeleteAsset (L : Ledger) (assetID : String) : Except CCError Unit × List WriteOp :=
  match ReadAsset L assetID with
  | .error e => (.error e, [])
  | .ok asset =>
    let w1 : WriteOp := (.simple assetID, none)
    let colorNameIndexKey : LKey := .composite index [asset.Color, asset.ID]
    let w2 : WriteOp := (colorNameIndexKey, none)
    (.ok (), [w1, w2])

/-- `TransferAsset`: read, set `Owner := newOwner`, rewrite the record. -/
def TransferAsset (L : Ledger) (assetID newOwner : String) :
    Except CCError Unit × List WriteOp :=
  match ReadAsset L assetID with
  | .error e => (.error e, [])
  | .ok asset =>
    let asset2 := { asset with Owner := newOwner }
    (.ok (), [(.simple assetID, some (.assetJson asset2))])

/-! ### Iterators

Fabric iterators enumerate ledger entries in ascending lexical order of the
encoded key.  `encodeKey` is the shim's key encoding (composite keys live in a
`U+0000`-tagged namespace with `U+0000`-terminated components); it is used here
only to fix the iteration order. -/

/-- The shim's string encoding of a ledger key. -/
def encodeKey : LKey → String
  | .simple k => k
  | .composite objectType attrs =>
      "\x00" ++ objectType ++ "\x00" ++ String.join (attrs.map (fun a => a ++ "\x00"))

/-- Lexicographic order on character lists, by code point. -/
def charListLE : List Char → List Char → Bool
  | [], _ => true
  | _ :: _, [] => false
  | c1 :: t1, c2 :: t2 =>
      if c1.toNat < c2.toNat then true
      else if c2.toNat < c1.toNat then false
      else charListLE t1 t2

/-- Lexicographic order on strings (the byte-wise key order of the store). -/
def strLE (a b : String) : Bool :=
  charListLE a.data b.data

/-- Strict lexicographic order on strings. -/
def strLT (a b : String) : Bool :=
  strLE a b && !(a == b)

/-- Iteration order on ledger entries: ascending encoded key. -/
def entryLE (p q : LKey × StoredValue) : Prop :=
  strLE (encodeKey p.1) (encodeKey q.1) = true

instance : DecidableRel entryLE := fun p q => by
  unfold entryLE; infer_instance

/-- Does a key fall under `GetStateByPartialCompositeKey(objectType, keyParts)`?
Matching composite keys are exactly those whose attribute list extends
`keyParts` (the shim scans the range of encoded keys with that prefix). -/
def matchesPartialCompositeKey (objectType : String) (keyParts : List String) :
    LKey → Bool
  | .simple _ => false
  | .composite ot attrs => ot == objectType && keyParts.isPrefixOf attrs

/-- `stub.GetStateByPartialCompositeKey`: the matching entries, in iteration
order. -/
def GetStateByPartialCompositeKey (L : Ledger) (objectType : String)
    (keyParts : List String) : List (LKey × StoredValue) :=
  List.insertionSort entryLE
    (L.filter (fun p => matchesPartialCompositeKey objectType keyParts p.1))

/-- Does an encoded key fall in the half-open range `[startKey, endKey)`?
An empty `endKey` means unbounded, as in the shim. -/
def inRange (startKey endKey : String) (k : LKey) : Bool :=
  strLE startKey (encodeKey k) && (endKey == "" || strLT (encodeKey k) endKey)

/-- `stub.GetStateByRange`: entries of `[startKey, endKey)` in iteration
order. -/
def GetStateByRange (L : Ledger) (startKey endKey : String) :
    List (LKey × StoredValue) :=
  List.insertionSort entryLE (L.filter (fun p => inRange startKey endKey p.1))

/-! ### Query materialization

`constructQueryResponseFromIterator` starts from Go's `var assets []*Asset`,
i.e. a nil slice, and appends one asset per iterator entry.  A Go slice that
may be nil is modelled as `Option (List Asset)`: `none` is the nil slice,
`some xs` a non-nil slice holding `xs`. -/

/-- Go's `append` on a possibly-nil `[]*Asset` slice. -/
def goAppend (s : Option (List Asset)) (a : Asset) : Option (List Asset) :=
  match s with
  | none => some [a]
  | some xs => some (xs ++ [a])

/-- The drain loop of `constructQueryResponseFromIterator`. -/
def constructLoop : List (LKey × StoredValue) → Option (List Asset) →
    Except CCError (Option (List Asset))
  | [], assets => .ok assets
  | (k, v) :: rest, assets =>
    match jsonUnmarshalAsset v with
    | none => .error (.serialization (encodeKey k))
    | some asset => constructLoop rest (goAppend assets asset)

/-- `constructQueryResponseFromIterator`: drain an iterator into a slice,
failing on the first undecodable value. -/
def constructQueryResponseFromIterator (results : List (LKey × StoredValue)) :
    Except CCError (Option (List Asset)) :=
  constructLoop results none

/-- `GetAssetsByRange`: materialize a range iterator; performs no writes. -/
def GetAssetsByRange (L : Ledger) (startKey endKey : String) :
    Except CCError (Option (List Asset)) :=
  constructQueryResponseFromIterator (GetStateByRange L startKey endKey)

/-! ### Rich queries

`stub.GetQueryResult` evaluates a CouchDB selector string outside this code
base; it is modelled as an oracle from query strings to iterator contents. -/

/-- An abstract rich-query backend. -/
def RichQuery := String → List (LKey × StoredValue)

/-- `getQueryResultForQueryString`: run the query string verbatim and
materialize the iterator. -/
def getQueryResultForQueryString (rq : RichQuery) (queryString : String) :
    Except CCError (Option (List Asset)) :=
  constructQueryResponseFromIterator (rq queryString)

/-- The query string `QueryAssetsByOwner` builds with `fmt.Sprintf`:
the owner string is spliced in with no escaping. -/
def ownerQueryString (owner : String) : String :=
  "\x7b\"selector\":\x7b\"docType\":\"asset\",\"owner\":\"" ++ owner ++ "\"\x7d\x7d"

/-- `QueryAssetsByOwner`: build the owner selector and delegate to the ad-hoc
query path. -/
def QueryAssetsByOwner (rq : RichQuery) (owner : String) :
    Except CCError (Option (List Asset)) :=
  getQueryResultForQueryString rq (ownerQueryString owner)

/-- `QueryAssets`: run a caller-supplied query string verbatim. -/
def QueryAssets (rq : RichQuery) (queryString : String) :
    Except CCError (Option (List Asset)) :=
  getQueryResultForQueryString rq queryString

/-- `stub.SplitCompositeKey`, restricted to the structural key model. -/
def SplitCompositeKey : LKey → String × List String
  | .simple s => (s, [])
  | .composite objectType attrs => (objectType, attrs)

/-- The per-entry loop of `TransferAssetByColor`.  Reads go to the committed
ledger `L` (Fabric has no read-your-writes); writes accumulate in order. -/
def transferByColorLoop (L : Ledger) (newOwner : String) :
    List (LKey × StoredValue) → List WriteOp → Except CCError Unit × List WriteOp
  | [], acc => (.ok (), acc)
  | (k, _) :: rest, acc =>
    let split := SplitCompositeKey k
    let compositeKeyParts := split.2
    if h : 1 < compositeKeyParts.length then
      let returnedAssetID := compositeKeyParts[1]
      match ReadAsset L returnedAssetID with
      | .error e => (.error e, acc)
      | .ok asset =>
        let asset2 := { asset with Owner := newOwner }
        transferByColorLoop L newOwner rest
          (acc ++ [(.simple returnedAssetID, some (.assetJson asset2))])
    else
      transferByColorLoop L newOwner rest acc

/-- `TransferAssetByColor`: scan the `color~name` index prefix for `color` and
rewrite the owner of every asset it names. -/
def TransferAssetByColor (L : Ledger) (color newOwner : String) :
    Except CCError Unit × List WriteOp :=
  let coloredAssetResultsIterator := GetStateByPartialCompositeKey L index [color]
  transferByColorLoop L newOwner coloredAssetResultsIterator []

/-! ### History -/

/-- A protobuf wall-clock timestamp (`seconds` since the epoch plus `nanos`). -/
structure PbTimestamp where
  seconds : Int
  nanos : Int
deriving DecidableEq

/-- The validity window of `ptypes.Timestamp`: years 0001..9999 and
normalized nanoseconds. -/
def validTimestamp (t : PbTimestamp) : Bool :=
  (-62135596800 ≤ t.seconds) && (t.seconds < 253402300800) &&
    (0 ≤ t.nanos) && (t.nanos < 1000000000)

/-- `ptypes.Timestamp`: convert a protobuf timestamp, failing outside the
valid window.  The converted wall-clock value is represented by the validated
timestamp itself. -/
def ptypesTimestamp (t : PbTimestamp) : Except CCError PbTimestamp :=
  if validTimestamp t then .ok t else .error (.badTimestamp t.seconds t.nanos)

/-- One entry of `stub.GetHistoryForKey`'s iterator (`queryresult.KeyModification`):
transaction id, the value bytes at that version (`.bytes []` for the empty/nil
value accompanying a delete), the commit timestamp, and the delete flag. -/
structure KeyModification where
  TxId : String
  Value : StoredValue
  Timestamp : PbTimestamp
  IsDelete : Bool
deriving DecidableEq

/-- Go's `len(response.Value) > 0`.  The JSON encoding of an asset is never
empty, so only an explicit empty byte string has length zero. -/
def hasValue : StoredValue → Bool
  | .assetJson _ => true
  | .bytes bs => !bs.isEmpty

/-- The `HistoryQueryResult` struct.  Its `Record` pointer is always set by
`GetAssetHistory`, so it is embedded as a plain `Asset`. -/
structure HistoryQueryResult where
  Record : Asset
  TxId : String
  Timestamp : PbTimestamp
  IsDelete : Bool
deriving DecidableEq

/-- Go's `Asset{ID: assetID}`: the placeholder record substituted for a
deleted version, all fields but the id at their zero values. -/
def placeholderAsset (assetID : String) : Asset :=
  { DocType := "", ID := assetID, Color := "", Size := 0
    Owner := "", AppraisedValue := 0 }

/-- `GetAssetHistory`, applied to the entries yielded by the history iterator
for `assetID` in their native order: non-empty values are deserialized (the
whole call fails on an undecodable one), empty values — deletes — get a
placeholder asset holding only the id; each entry's timestamp is converted and
one result per entry is emitted, preserving order.  Performs no writes. -/
def GetAssetHistory (assetID : String) :
    List KeyModification → Except CCError (List HistoryQueryResult)
  | [] => .ok []
  | response :: rest =>
    let assetE : Except CCError Asset :=
      if hasValue response.Value then
        match jsonUnmarshalAsset response.Value with
        | none => .error (.serialization assetID)
        | some a => .ok a
      else
        .ok (placeholderAsset assetID)
    match assetE with
    | .error e => .error e
    | .ok asset =>
      match ptypesTimestamp response.Timestamp with
      | .error e => .error e
      | .ok timestamp =>
        match GetAssetHistory assetID rest with
        | .error e => .error e
        | .ok records =>
          .ok ({ Record := asset, TxId := response.TxId
                 Timestamp := timestamp, IsDelete := response.IsDelete } :: records)

/-! ### InitLedger -/

/-- The six literal seed assets of `InitLedger`, in source order. -/
def initAssets : List Asset :=
  [ { DocType := "asset", ID := "asset1", Color := "blue", Size := 5
      Owner := "Tomoko", AppraisedValue := 300 },
    { DocType := "asset", ID := "asset2", Color := "red", Size := 5
      Owner := "Brad", AppraisedValue := 400 },
    { DocType := "asset", ID := "asset3", Color := "green", Size := 10
      Owner := "Jin Soo", AppraisedValue := 500 },
    { DocType := "asset", ID := "asset4", Color := "yellow", Size := 10
      Owner := "Max", AppraisedValue := 600 },
    { DocType := "asset", ID := "asset5", Color := "black", Size := 15
      Owner := "Adriana", AppraisedValue := 700 },
    { DocType := "asset", ID := "asset6", Color := "white", Size := 15
      Owner := "Michel", AppraisedValue := 800 } ]

/-- `InitLedger`'s loop: one `CreateAsset` per seed asset, in order, returning
the first error.  Every existence probe reads the committed ledger `L`
(read-your-writes does not apply across the calls of one invocation). -/
def initLedgerLoop (L : Ledger) :
    List Asset → List WriteOp → Except CCError Unit × List WriteOp
  | [], acc => (.ok (), acc)
  | asset :: rest, acc =>
    match CreateAsset L asset.ID asset.Color asset.Size asset.Owner asset.AppraisedValue with
    | (.ok _, ws) => initLedgerLoop L rest (acc ++ ws)
    | (.error e, ws) => (.error e, acc ++ ws)

/-- `InitLedger`: create the six seed assets, stopping at the first error. -/
def InitLedger (L : Ledger) : Except CCError Unit × List WriteOp :=
  initLedgerLoop L initAssets []

/-- The two writes a successful `CreateAsset` issues for a seed asset
(whose `DocType` is the literal `"asset"`). -/
def createWritesFor (a : Asset) : List WriteOp :=
  [(.simple a.ID, some (.assetJson a)),
   (.composite index [a.Color, a.ID], some (.bytes [0x00]))]

/-- The full write set of a successful `InitLedger`: the two creation writes
of each seed asset, in seed order. -/
def initWrites : List WriteOp :=
  (initAssets.map createWritesFor).flatten

/-! ### The specification's well-formed owner selector

The specification says `QueryByOwner` "builds a structured selector matching
`docType == "asset" AND owner == <owner>`".  A selector string carries an
arbitrary owner as its predicate exactly when the owner is embedded as a
correctly escaped JSON string literal; the following definitions build that
spec-side selector, to be compared with the code-side `ownerQueryString`. -/

/-- Lower-case hexadecimal digit. -/
def hexDigit (n : Nat) : Char :=
  if n < 10 then Char.ofNat (48 + n) else Char.ofNat (87 + n)

/-- Four-digit hexadecimal rendering, as used in `\uXXXX` escapes. -/
def hex4 (n : Nat) : String :=
  String.mk [hexDigit (n / 4096 % 16), hexDigit (n / 256 % 16),
             hexDigit (n / 16 % 16), hexDigit (n % 16)]

/-- JSON string-literal escaping of one character. -/
def jsonEscapeChar (c : Char) : String :=
  if c = '"' then "\\\""
  else if c = '\\' then "\\\\"
  else if c.toNat < 32 then "\\u" ++ hex4 c.toNat
  else String.singleton c

/-- JSON string-literal escaping of a whole string, character by character. -/
def jsonEscapeChars : List Char → List Char
  | [] => []
  | c :: cs => (jsonEscapeChar c).data ++ jsonEscapeChars cs

/-- JSON string-literal escaping of a string. -/
def jsonEscape (s : String) : String :=
  ⟨jsonEscapeChars s.data⟩

/-- The spec-side selector: the owner embedded as an escaped JSON string
literal, so the predicate is exactly `docType == "asset" AND owner == owner`. -/
def specOwnerSelector (owner : String) : String :=
  "\x7b\"selector\":\x7b\"docType\":\"asset\",\"owner\":\"" ++ jsonEscape owner ++ "\"\x7d\x7d"

/-! ### The secondary-index invariant -/

/-- Key uniqueness of the association-list ledger. -/
def keysNodup (L : Ledger) : Prop :=
  (L.map Prod.fst).Nodup

/-- The state invariant maintained by the contract between invocations:
keys are unique; every stored asset record's `ID` field equals its key (all
writers store the record under its own id); every `color~name` index key has
exactly the two components `(color, id)`; and an index entry `(c, i)` exists
exactly when an asset record is stored under `i` with color `c` — so each
existing asset has exactly one index entry and no entry lacks its asset. -/
structure StateInv (L : Ledger) : Prop where
  nodup : keysNodup L
  idCoh : ∀ id a, getState L (.simple id) = some (.assetJson a) → a.ID = id
  shape : ∀ attrs, (getState L (.composite index attrs)).isSome → attrs.length = 2
  corr : ∀ c i, (getState L (.composite index [c, i])).isSome ↔
      ∃ a, getState L (.simple i) = some (.assetJson a) ∧ a.Color = c

/-! ### Sample data for concrete instantiations -/

/-- The asset created by `CreateAsset("asset1","blue",5,"Tomoko",300)`. -/
def sampleAsset : Asset :=
  { DocType := "asset", ID := "asset1", Color := "blue", Size := 5
    Owner := "Tomoko", AppraisedValue := 300 }

/-- The ledger committed after that create, starting from an empty ledger. -/
def sampleLedger : Ledger :=
  [(LKey.simple "asset1", StoredValue.assetJson sampleAsset),
   (LKey.composite index ["blue", "asset1"], StoredValue.bytes [0x00])]

/-- A two-entry history for `asset1`: a creation version then a delete. -/
def sampleHistEntries : List KeyModification :=
  [{ TxId := "tx1", Value := .assetJson sampleAsset
     Timestamp := { seconds := 1700000000, nanos := 0 }, IsDelete := false },
   { TxId := "tx2", Value := .bytes []
     Timestamp := { seconds := 1700000500, nanos := 0 }, IsDelete := true }]

/-- The history records `GetAssetHistory` yields for `sampleHistEntries`. -/
def sampleHistRecords : List HistoryQueryResult :=
  [{ Record := sampleAsset, TxId := "tx1"
     Timestamp := { seconds := 1700000000, nanos := 0 }, IsDelete := false },
   { Record := placeholderAsset "asset1", TxId := "tx2"
     Timestamp := { seconds := 1700000500, nanos := 0 }, IsDelete := true }]

/-! ## Ledger lemmas -/


theorem getState_putState_self (L : Ledger) (k : LKey) (v : StoredValue) :
    getState (putState L k v) k = some v := by
  induction L with
  | nil => simp [putState, getState]
  | cons p rest ih =>
    obtain ⟨k', v'⟩ := p
    by_cases h : k' = k
    · simp [putState, h, getState]
    · simp [putState, h, getState, ih]

theorem getState_putState_ne (L : Ledger) (k k' : LKey) (v : StoredValue)
    (h : k' ≠ k) : getState (putState L k v) k' = getState L k' := by
  have hne : ¬ (k = k') := fun e => h e.symm
  induction L with
  | nil => simp [putState, getState, hne]
  | cons p rest ih =>
    obtain ⟨k₀, v₀⟩ := p
    by_cases hk : k₀ = k
    · subst hk
      simp [putState, getState, hne]
    · simp only [putState, if_neg hk, getState]
      by_cases hq : k₀ = k'
      · simp [hq]
      · simp [hq, ih]

theorem getState_delState_self (L : Ledger) (k : LKey) :
    getState (delState L k) k = none := by
  induction L with
  | nil => simp [delState, getState]
  | cons p rest ih =>
    obtain ⟨k', v'⟩ := p
    by_cases h : k' = k
    · simp [delState, h, ih]
    · simp [delState, h, getState, ih]

theorem getState_delState_ne (L : Ledger) (k k' : LKey)
    (h : k' ≠ k) : getState (delState L k) k' = getState L k' := by
  have hne : ¬ (k = k') := fun e => h e.symm
  induction L with
  | nil => simp [delState]
  | cons p rest ih =>
    obtain ⟨k₀, v₀⟩ := p
    by_cases hk : k₀ = k
    · subst hk
      simp [delState, getState, hne, ih]
    · simp only [delState, if_neg hk, getState]
      by_cases hq : k₀ = k'
      · simp [hq]
      · simp [hq, ih]

theorem mem_of_getState_eq_some {L : Ledger} {k : LKey} {v : StoredValue}
    (h : getState L k = some v) : (k, v) ∈ L := by
  induction L with
  | nil => simp [getState] at h
  | cons p rest ih =>
    obtain ⟨k', v'⟩ := p
    by_cases hk : k' = k
    · subst hk
      simp [getState] at h
      simp [h]
    · simp [getState, hk] at h
      exact List.mem_cons_of_mem _ (ih h)

theorem getState_eq_some_of_mem {L : Ledger} {k : LKey} {v : StoredValue}
    (hnd : keysNodup L) (h : (k, v) ∈ L) : getState L k = some v := by
  induction L with
  | nil => simp at h
  | cons p rest ih =>
    obtain ⟨k', v'⟩ := p
    have hnd' : (k' :: rest.map Prod.fst).Nodup := hnd
    obtain ⟨h1, h2⟩ := List.nodup_cons.mp hnd'
    rcases List.mem_cons.mp h with h3 | h3
    · obtain ⟨rfl, rfl⟩ : k = k' ∧ v = v' := by simpa using h3
      simp [getState]
    · have hk : k' ≠ k := by
        rintro rfl
        exact h1 (List.mem_map.mpr ⟨(k', v), h3, rfl⟩)
      simp [getState, hk, ih h2 h3]

theorem mem_keys_putState {L : Ledger} {k k' : LKey} {v : StoredValue} :
    k' ∈ (putState L k v).map Prod.fst ↔ k' ∈ L.map Prod.fst ∨ k' = k := by
  induction L with
  | nil => simp [putState]
  | cons p rest ih =>
    obtain ⟨k₀, v₀⟩ := p
    by_cases h : k₀ = k
    · subst h
      simp [putState]
      tauto
    · simp [putState, h, ih]
      tauto

theorem keysNodup_putState (L : Ledger) (k : LKey) (v : StoredValue)
    (hnd : keysNodup L) : keysNodup (putState L k v) := by
  induction L with
  | nil => simp [putState, keysNodup]
  | cons p rest ih =>
    obtain ⟨k₀, v₀⟩ := p
    have hnd' : (k₀ :: rest.map Prod.fst).Nodup := hnd
    obtain ⟨h1, h2⟩ := List.nodup_cons.mp hnd'
    by_cases h : k₀ = k
    · subst h
      unfold keysNodup
      rw [show putState ((k₀, v₀) :: rest) k₀ v = (k₀, v) :: rest by simp [putState]]
      simpa [keysNodup] using List.nodup_cons.mpr ⟨h1, h2⟩
    · unfold keysNodup
      rw [show putState ((k₀, v₀) :: rest) k v = (k₀, v₀) :: putState rest k v by
        simp [putState, h]]
      rw [List.map_cons]
      refine List.nodup_cons.mpr ⟨?_, ih h2⟩
      intro hmem
      rcases mem_keys_putState.mp hmem with hx | hx
      · exact h1 hx
      · exact h hx

theorem delState_sublist (L : Ledger) (k : LKey) : List.Sublist (delState L k) L := by
  induction L with
  | nil => simp [delState]
  | cons p rest ih =>
    obtain ⟨k', v'⟩ := p
    by_cases h : k' = k
    · simp only [delState, if_pos h]
      exact ih.trans (List.sublist_cons_self _ _)
    · simp only [delState, if_neg h]
      exact ih.cons₂ _

theorem keysNodup_delState (L : Ledger) (k : LKey)
    (hnd : keysNodup L) : keysNodup (delState L k) :=
  ((delState_sublist L k).map Prod.fst).nodup hnd

theorem applyWrites_append (L : Ledger) (ws₁ ws₂ : List WriteOp) :
    applyWrites L (ws₁ ++ ws₂) = applyWrites (applyWrites L ws₁) ws₂ :=
  List.foldl_append _ _ _ _

theorem getState_applyWrites_of_notMem : ∀ (ws : List WriteOp) (L : Ledger) (k : LKey),
    (∀ w ∈ ws, w.1 ≠ k) → getState (applyWrites L ws) k = getState L k
  | [], _, _, _ => rfl
  | (kw, vw) :: rest, L, k, h => by
    have hk : kw ≠ k := h _ (List.mem_cons_self _ _)
    have h' : ∀ w ∈ rest, w.1 ≠ k := fun w hw => h w (List.mem_cons_of_mem _ hw)
    have step : getState (applyWrite L (kw, vw)) k = getState L k := by
      cases vw with
      | some v => exact getState_putState_ne _ _ _ _ (fun e => hk e.symm)
      | none => exact getState_delState_ne _ _ _ (fun e => hk e.symm)
    calc getState (applyWrites L ((kw, vw) :: rest)) k
        = getState (applyWrites (applyWrite L (kw, vw)) rest) k := rfl
      _ = getState (applyWrite L (kw, vw)) k :=
          getState_applyWrites_of_notMem rest _ k h'
      _ = getState L k := step

theorem getState_applyWrites_of_mem :
    ∀ (ws : List WriteOp) (L : Ledger) (k : LKey) (v : StoredValue),
    (ws.map Prod.fst).Nodup → (k, some v) ∈ ws →
    getState (applyWrites L ws) k = some v
  | [], _, _, _, _, h => by simp at h
  | (kw, vw) :: rest, L, k, v, hnd, h => by
    have hnd' : (kw :: rest.map Prod.fst).Nodup := hnd
    obtain ⟨h1, h2⟩ := List.nodup_cons.mp hnd'
    rcases List.mem_cons.mp h with h3 | h3
    · obtain ⟨hk, hv⟩ : k = kw ∧ some v = vw :=
        ⟨congrArg Prod.fst h3, congrArg Prod.snd h3⟩
      subst hk
      subst hv
      have hrest : ∀ w ∈ rest, w.1 ≠ k := by
        intro w hw he
        exact h1 (he ▸ List.mem_map.mpr ⟨w, hw, rfl⟩)
      calc getState (applyWrites L ((k, some v) :: rest)) k
          = getState (applyWrites (putState L k v) rest) k := rfl
        _ = getState (putState L k v) k :=
            getState_applyWrites_of_notMem rest _ k hrest
        _ = some v := getState_putState_self _ _ _
    · exact getState_applyWrites_of_mem rest _ k v h2 h3

theorem ReadAsset_ok_iff {L : Ledger} {id : String} {a : Asset} :
    ReadAsset L id = .ok a ↔ getState L (.simple id) = some (.assetJson a) := by
  unfold ReadAsset
  cases hg : getState L (.simple id) with
  | none => simp
  | some sv =>
    cases sv with
    | assetJson b => simp [jsonUnmarshalAsset]
    | bytes bs => simp [jsonUnmarshalAsset]

theorem ReadAsset_error_cases {L : Ledger} {id : String} {e : CCError}
    (h : ReadAsset L id = .error e) : e = .notFound id ∨ e = .serialization id := by
  unfold ReadAsset at h
  cases hg : getState L (.simple id) with
  | none =>
    rw [hg] at h
    exact Or.inl (Except.error.inj h).symm
  | some sv =>
    rw [hg] at h
    cases sv with
    | assetJson b => simp [jsonUnmarshalAsset] at h
    | bytes bs => exact Or.inr (Except.error.inj h).symm

theorem stateInv_nil : StateInv [] := by
  refine ⟨?_, ?_, ?_, ?_⟩
  · simp [keysNodup]
  · intro id a h
    simp [getState] at h
  · intro attrs h
    simp [getState] at h
  · intro c i
    simp [getState]

theorem stateInv_createWrites {L : Ledger} (hInv : StateInv L)
    (assetID color : String) (size : Int) (owner : String) (appraisedValue : Int)
    (hnone : getState L (.simple assetID) = none) :
    StateInv (applyWrites L
      [(.simple assetID,
        some (.assetJson
          { DocType := "asset", ID := assetID, Color := color, Size := size,
            Owner := owner, AppraisedValue := appraisedValue })),
       (.composite index [color, assetID], some (.bytes [0x00]))]) := by
  set A : Asset := { DocType := "asset", ID := assetID, Color := color
                     Size := size, Owner := owner, AppraisedValue := appraisedValue } with hA
  rw [show applyWrites L [(.simple assetID, some (.assetJson A)),
      (.composite index [color, assetID], some (.bytes [0x00]))]
      = putState (putState L (.simple assetID) (.assetJson A))
          (.composite index [color, assetID]) (.bytes [0x00]) from rfl]
  set L1 := putState L (.simple assetID) (.assetJson A) with hL1
  set L2 := putState L1 (.composite index [color, assetID]) (.bytes [0x00]) with hL2
  have gSimple : ∀ i : String, getState L2 (.simple i) =
      if i = assetID then some (.assetJson A) else getState L (.simple i) := by
    intro i
    have h1 : getState L2 (.simple i) = getState L1 (.simple i) := by
      rw [hL2]
      exact getState_putState_ne _ _ _ _ (fun h => LKey.noConfusion h)
    by_cases hi : i = assetID
    · subst hi
      rw [h1, hL1, getState_putState_self, if_pos rfl]
    · have hne : LKey.simple i ≠ LKey.simple assetID :=
        fun h => hi (LKey.simple.inj h)
      rw [h1, hL1, getState_putState_ne _ _ _ _ hne, if_neg hi]
  have gComp : ∀ (ot : String) (attrs : List String),
      ¬ (ot = index ∧ attrs = [color, assetID]) →
      getState L2 (.composite ot attrs) = getState L (.composite ot attrs) := by
    intro ot attrs hne
    have h1 : getState L2 (.composite ot attrs) = getState L1 (.composite ot attrs) := by
      rw [hL2]
      refine getState_putState_ne _ _ _ _ ?_
      intro h
      obtain ⟨h2, h3⟩ := LKey.composite.inj h
      exact hne ⟨h2, h3⟩
    rw [h1, hL1]
    exact getState_putState_ne _ _ _ _ (fun h => LKey.noConfusion h)
  have gIdx : getState L2 (.composite index [color, assetID]) = some (.bytes [0x00]) := by
    rw [hL2]
    exact getState_putState_self _ _ _
  refine ⟨?_, ?_, ?_, ?_⟩
  · rw [hL2, hL1]
    exact keysNodup_putState _ _ _ (keysNodup_putState _ _ _ hInv.nodup)
  · intro i a h
    rw [gSimple i] at h
    by_cases hi : i = assetID
    · rw [if_pos hi] at h
      obtain h2 : A = a := StoredValue.assetJson.inj (Option.some.inj h)
      rw [← h2, hA]
      exact hi.symm
    · rw [if_neg hi] at h
      exact hInv.idCoh i a h
  · intro attrs h
    by_cases ha : attrs = [color, assetID]
    · subst ha
      rfl
    · rw [gComp index attrs (fun hc => ha hc.2)] at h
      exact hInv.shape attrs h
  · intro c' i'
    by_cases hi : i' = assetID
    · subst hi
      by_cases hc : c' = color
      · subst hc
        constructor
        · intro _
          refine ⟨A, ?_, by rw [hA]⟩
          rw [gSimple, if_pos rfl]
        · intro _
          rw [gIdx]
          rfl
      · have h1 : getState L2 (.composite index [c', i']) =
            getState L (.composite index [c', i']) := by
          refine gComp index [c', i'] ?_
          intro hcc
          obtain ⟨h3, _⟩ := List.cons.inj hcc.2
          exact hc h3
        rw [h1]
        constructor
        · intro hsome
          obtain ⟨a, ha1, _⟩ := (hInv.corr c' i').mp hsome
          rw [hnone] at ha1
          exact absurd ha1 (by simp)
        · rintro ⟨a, ha1, ha2⟩
          rw [gSimple, if_pos rfl] at ha1
          obtain h2 : A = a := StoredValue.assetJson.inj (Option.some.inj ha1)
          rw [← h2, hA] at ha2
          exact absurd ha2.symm hc
    · have h1 : getState L2 (.composite index [c', i']) =
          getState L (.composite index [c', i']) := by
        refine gComp index [c', i'] ?_
        intro hcc
        obtain ⟨_, h4⟩ := List.cons.inj hcc.2
        obtain ⟨h5, _⟩ := List.cons.inj h4
        exact hi h5
      rw [h1, gSimple, if_neg hi]
      exact hInv.corr c' i'

theorem stateInv_transferWrite {L : Ledger} (hInv : StateInv L) {i : String} {a : Asset}
    (hread : getState L (.simple i) = some (.assetJson a)) (o : String) :
    StateInv (putState L (.simple i) (.assetJson { a with Owner := o })) := by
  have hID : a.ID = i := hInv.idCoh i a hread
  set A2 : Asset := { a with Owner := o } with hA2
  set L2 := putState L (.simple i) (.assetJson A2) with hL2
  have gSimple : ∀ j : String, getState L2 (.simple j) =
      if j = i then some (.assetJson A2) else getState L (.simple j) := by
    intro j
    by_cases hj : j = i
    · subst hj
      rw [hL2, getState_putState_self, if_pos rfl]
    · rw [hL2, getState_putState_ne _ _ _ _ (fun h => hj (LKey.simple.inj h)), if_neg hj]
  have gComp : ∀ (ot : String) (attrs : List String),
      getState L2 (.composite ot attrs) = getState L (.composite ot attrs) := by
    intro ot attrs
    rw [hL2]
    exact getState_putState_ne _ _ _ _ (fun h => LKey.noConfusion h)
  refine ⟨?_, ?_, ?_, ?_⟩
  · rw [hL2]
    exact keysNodup_putState _ _ _ hInv.nodup
  · intro j b h
    rw [gSimple j] at h
    by_cases hj : j = i
    · rw [if_pos hj] at h
      obtain h2 : A2 = b := StoredValue.assetJson.inj (Option.some.inj h)
      rw [← h2, hA2]
      show a.ID = j
      rw [hID, hj]
    · rw [if_neg hj] at h
      exact hInv.idCoh j b h
  · intro attrs h
    rw [gComp] at h
    exact hInv.shape attrs h
  · intro c' i'
    rw [gComp, gSimple]
    by_cases hj : i' = i
    · subst hj
      rw [if_pos rfl]
      constructor
      · intro hsome
        obtain ⟨b, hb1, hb2⟩ := (hInv.corr c' i').mp hsome
        refine ⟨A2, rfl, ?_⟩
        have hba : b = a := by
          rw [hread] at hb1
          exact (StoredValue.assetJson.inj (Option.some.inj hb1)).symm
        rw [hA2]
        show a.Color = c'
        rw [← hba]
        exact hb2
      · rintro ⟨b, hb1, hb2⟩
        obtain h2 : A2 = b := StoredValue.assetJson.inj (Option.some.inj hb1)
        refine (hInv.corr c' i').mpr ⟨a, hread, ?_⟩
        have : A2.Color = c' := h2 ▸ hb2
        rw [hA2] at this
        exact this
    · rw [if_neg hj]
      exact hInv.corr c' i'

theorem stateInv_deleteWrites {L : Ledger} (hInv : StateInv L) {i : String} {a : Asset}
    (hread : getState L (.simple i) = some (.assetJson a)) :
    StateInv (delState (delState L (.simple i)) (.composite index [a.Color, a.ID])) := by
  have hID : a.ID = i := hInv.idCoh i a hread
  rw [hID]
  set L1 := delState L (.simple i) with hL1
  set L2 := delState L1 (.composite index [a.Color, i]) with hL2
  have gSimple : ∀ j : String, getState L2 (.simple j) =
      if j = i then none else getState L (.simple j) := by
    intro j
    have h1 : getState L2 (.simple j) = getState L1 (.simple j) := by
      rw [hL2]
      exact getState_delState_ne _ _ _ (fun h => LKey.noConfusion h)
    by_cases hj : j = i
    · subst hj
      rw [h1, hL1, getState_delState_self, if_pos rfl]
    · rw [h1, hL1, getState_delState_ne _ _ _ (fun h => hj (LKey.simple.inj h)), if_neg hj]
  have gComp : ∀ (ot : String) (attrs : List String),
      ¬ (ot = index ∧ attrs = [a.Color, i]) →
      getState L2 (.composite ot attrs) = getState L (.composite ot attrs) := by
    intro ot attrs hne
    have h1 : getState L2 (.composite ot attrs) = getState L1 (.composite ot attrs) := by
      rw [hL2]
      refine getState_delState_ne _ _ _ ?_
      intro h
      obtain ⟨h2, h3⟩ := LKey.composite.inj h
      exact hne ⟨h2, h3⟩
    rw [h1, hL1]
    exact getState_delState_ne _ _ _ (fun h => LKey.noConfusion h)
  have gIdx : getState L2 (.composite index [a.Color, i]) = none := by
    rw [hL2]
    exact getState_delState_self _ _
  refine ⟨?_, ?_, ?_, ?_⟩
  · rw [hL2, hL1]
    exact keysNodup_delState _ _ (keysNodup_delState _ _ hInv.nodup)
  · intro j b h
    rw [gSimple j] at h
    by_cases hj : j = i
    · rw [if_pos hj] at h
      exact absurd h (by simp)
    · rw [if_neg hj] at h
      exact hInv.idCoh j b h
  · intro attrs h
    by_cases ha : attrs = [a.Color, i]
    · subst ha
      rfl
    · rw [gComp index attrs (fun hc => ha hc.2)] at h
      exact hInv.shape attrs h
  · intro c' i'
    by_cases hj : i' = i
    · subst hj
      by_cases hc : c' = a.Color
      · subst hc
        rw [gIdx, gSimple, if_pos rfl]
        simp
      · have h1 : getState L2 (.composite index [c', i']) =
            getState L (.composite index [c', i']) := by
          refine gComp index [c', i'] ?_
          intro hcc
          obtain ⟨h3, _⟩ := List.cons.inj hcc.2
          exact hc h3
        rw [h1, gSimple, if_pos rfl]
        constructor
        · intro hsome
          obtain ⟨b, hb1, hb2⟩ := (hInv.corr c' i').mp hsome
          have hba : b = a := by
            rw [hread] at hb1
            exact (StoredValue.assetJson.inj (Option.some.inj hb1)).symm
          rw [hba] at hb2
          exact absurd hb2.symm hc
        · rintro ⟨b, hb1, -⟩
          exact absurd hb1 (by simp)
    · have h1 : getState L2 (.composite index [c', i']) =
          getState L (.composite index [c', i']) := by
        refine gComp index [c', i'] ?_
        intro hcc
        obtain ⟨-, h4⟩ := List.cons.inj hcc.2
        obtain ⟨h5, -⟩ := List.cons.inj h4
        exact hj h5
      rw [h1, gSimple, if_neg hj]
      exact hInv.corr c' i'

theorem CreateAsset_ok {L : Ledger} {assetID color : String} {size : Int}
    {owner : String} {appraisedValue : Int} {u : Unit} {ws : List WriteOp}
    (h : CreateAsset L assetID color size owner appraisedValue = (.ok u, ws)) :
    getState L (.simple assetID) = none ∧
    ws = [(.simple assetID,
           some (.assetJson
             { DocType := "asset", ID := assetID, Color := color, Size := size,
               Owner := owner, AppraisedValue := appraisedValue })),
          (.composite index [color, assetID], some (.bytes [0x00]))] := by
  unfold CreateAsset AssetExists at h
  cases hg : getState L (.simple assetID) with
  | some v =>
    rw [hg] at h
    exact absurd (congrArg Prod.fst h) (by simp)
  | none =>
    rw [hg] at h
    exact ⟨rfl, (congrArg Prod.snd h).symm⟩

theorem stateInv_CreateAsset {L : Ledger} (hInv : StateInv L)
    {assetID color : String} {size : Int} {owner : String} {appraisedValue : Int}
    {u : Unit} {ws : List WriteOp}
    (h : CreateAsset L assetID color size owner appraisedValue = (.ok u, ws)) :
    StateInv (applyWrites L ws) := by
  obtain ⟨hnone, hws⟩ := CreateAsset_ok h
  rw [hws]
  exact stateInv_createWrites hInv assetID color size owner appraisedValue hnone

theorem TransferAsset_ok {L : Ledger} {assetID newOwner : String} {u : Unit}
    {ws : List WriteOp} (h : TransferAsset L assetID newOwner = (.ok u, ws)) :
    ∃ a, ReadAsset L assetID = .ok a ∧
      ws = [(.simple assetID, some (.assetJson { a with Owner := newOwner }))] := by
  unfold TransferAsset at h
  cases hra : ReadAsset L assetID with
  | error e =>
    rw [hra] at h
    exact absurd (congrArg Prod.fst h) (by simp)
  | ok a =>
    rw [hra] at h
    exact ⟨a, rfl, (congrArg Prod.snd h).symm⟩

theorem stateInv_TransferAsset {L : Ledger} (hInv : StateInv L)
    {assetID newOwner : String} {u : Unit} {ws : List WriteOp}
    (h : TransferAsset L assetID newOwner = (.ok u, ws)) :
    StateInv (applyWrites L ws) := by
  obtain ⟨a, hra, hws⟩ := TransferAsset_ok h
  rw [hws]
  exact stateInv_transferWrite hInv (ReadAsset_ok_iff.mp hra) newOwner

theorem DeleteAsset_ok {L : Ledger} {assetID : String} {u : Unit}
    {ws : List WriteOp} (h : DeleteAsset L assetID = (.ok u, ws)) :
    ∃ a, ReadAsset L assetID = .ok a ∧
      ws = [(.simple assetID, none), (.composite index [a.Color, a.ID], none)] := by
  unfold DeleteAsset at h
  cases hra : ReadAsset L assetID with
  | error e =>
    rw [hra] at h
    exact absurd (congrArg Prod.fst h) (by simp)
  | ok a =>
    rw [hra] at h
    exact ⟨a, rfl, (congrArg Prod.snd h).symm⟩

theorem stateInv_DeleteAsset {L : Ledger} (hInv : StateInv L)
    {assetID : String} {u : Unit} {ws : List WriteOp}
    (h : DeleteAsset L assetID = (.ok u, ws)) :
    StateInv (applyWrites L ws) := by
  obtain ⟨a, hra, hws⟩ := DeleteAsset_ok h
  rw [hws]
  show StateInv (delState (delState L (.simple assetID)) (.composite index [a.Color, a.ID]))
  exact stateInv_deleteWrites hInv (ReadAsset_ok_iff.mp hra)

theorem mem_GetStateByPartialCompositeKey {L : Ledger} {objectType : String}
    {keyParts : List String} {p : LKey × StoredValue} :
    p ∈ GetStateByPartialCompositeKey L objectType keyParts ↔
      p ∈ L ∧ matchesPartialCompositeKey objectType keyParts p.1 = true := by
  unfold GetStateByPartialCompositeKey
  rw [List.mem_insertionSort]
  exact List.mem_filter

theorem scan_entry_shape {L : Ledger} (hInv : StateInv L) {c : String}
    {p : LKey × StoredValue}
    (hp : p ∈ GetStateByPartialCompositeKey L index [c]) :
    ∃ i a, p.1 = LKey.composite index [c, i] ∧
      getState L (.simple i) = some (.assetJson a) ∧ a.Color = c ∧ a.ID = i := by
  obtain ⟨hmem, hmatch⟩ := mem_GetStateByPartialCompositeKey.mp hp
  obtain ⟨k, v⟩ := p
  cases k with
  | simple s => simp [matchesPartialCompositeKey] at hmatch
  | composite ot attrs =>
    simp only [matchesPartialCompositeKey, Bool.and_eq_true, beq_iff_eq] at hmatch
    obtain ⟨hot, hpre⟩ := hmatch
    subst hot
    have hsome : getState L (.composite index attrs) = some v :=
      getState_eq_some_of_mem hInv.nodup hmem
    have hlen : attrs.length = 2 := hInv.shape attrs (by rw [hsome]; rfl)
    obtain ⟨x, y, hxy⟩ : ∃ x y, attrs = [x, y] := by
      cases attrs with
      | nil => simp at hlen
      | cons x t =>
        cases t with
        | nil => simp at hlen
        | cons y t2 =>
          cases t2 with
          | nil => exact ⟨x, y, rfl⟩
          | cons z t3 => simp at hlen
    subst hxy
    have hx : c = x := by
      simpa [List.isPrefixOf] using hpre
    subst hx
    obtain ⟨a, ha1, ha2⟩ := (hInv.corr c y).mp (by rw [hsome]; rfl)
    exact ⟨y, a, rfl, ha1, ha2, hInv.idCoh y a ha1⟩

theorem scan_keys_nodup {L : Ledger} (hInv : StateInv L) (objectType : String)
    (keyParts : List String) :
    ((GetStateByPartialCompositeKey L objectType keyParts).map Prod.fst).Nodup := by
  have h1 : List.Sublist
      (L.filter (fun p => matchesPartialCompositeKey objectType keyParts p.1)) L :=
    List.filter_sublist _
  have h2 : ((L.filter
      (fun p => matchesPartialCompositeKey objectType keyParts p.1)).map Prod.fst).Nodup :=
    (h1.map Prod.fst).nodup hInv.nodup
  have h3 : (GetStateByPartialCompositeKey L objectType keyParts).Perm
      (L.filter (fun p => matchesPartialCompositeKey objectType keyParts p.1)) :=
    List.perm_insertionSort _ _
  exact ((h3.map Prod.fst).nodup_iff).mpr h2

theorem scan_mem_of_getState {L : Ledger} {c i : String}
    {v : StoredValue} (h : getState L (.composite index [c, i]) = some v) :
    (LKey.composite index [c, i], v) ∈ GetStateByPartialCompositeKey L index [c] := by
  refine mem_GetStateByPartialCompositeKey.mpr ⟨mem_of_getState_eq_some h, ?_⟩
  simp [matchesPartialCompositeKey, List.isPrefixOf]

theorem transferByColorLoop_ok {L : Ledger} {c : String} (o : String) :
    ∀ (entries : List (LKey × StoredValue)) (acc : List WriteOp),
    (∀ p ∈ entries, ∃ i a, p.1 = LKey.composite index [c, i] ∧
        getState L (.simple i) = some (.assetJson a) ∧ a.Color = c ∧ a.ID = i) →
    ∃ ws', transferByColorLoop L o entries acc = (.ok (), acc ++ ws') ∧
      (∀ w ∈ ws', ∃ i a, w = (LKey.simple i, some (.assetJson { a with Owner := o })) ∧
          getState L (.simple i) = some (.assetJson a)) ∧
      (∀ i a, LKey.composite index [c, i] ∈ entries.map Prod.fst →
          getState L (.simple i) = some (.assetJson a) →
          (LKey.simple i, some (StoredValue.assetJson { a with Owner := o })) ∈ ws') ∧
      ws'.map Prod.fst =
        entries.map (fun p => LKey.simple ((SplitCompositeKey p.1).2.getD 1 ""))
  | [], acc, _ => by
    refine ⟨[], by simp [transferByColorLoop], ?_, ?_, by simp⟩
    · intro w hw
      simp at hw
    · intro i a hmem _
      simp at hmem
  | p :: rest, acc, hent => by
    obtain ⟨k, v⟩ := p
    obtain ⟨i, a, hk, hread, hColor, hID⟩ := hent (k, v) (List.mem_cons_self _ _)
    subst hk
    have hra : ReadAsset L i = .ok a := ReadAsset_ok_iff.mpr hread
    have hstep : transferByColorLoop L o ((LKey.composite index [c, i], v) :: rest) acc =
        transferByColorLoop L o rest
          (acc ++ [(.simple i, some (.assetJson { a with Owner := o }))]) := by
      show (match ReadAsset L i with
        | .error e => (Except.error e, acc)
        | .ok asset => transferByColorLoop L o rest
            (acc ++ [(.simple i, some (.assetJson { asset with Owner := o }))])) =
        transferByColorLoop L o rest
          (acc ++ [(.simple i, some (.assetJson { a with Owner := o }))])
      rw [hra]
    obtain ⟨ws'', hloop, hw'', hmem'', hkeys''⟩ :=
      transferByColorLoop_ok o rest
        (acc ++ [(.simple i, some (.assetJson { a with Owner := o }))])
        (fun q hq => hent q (List.mem_cons_of_mem _ hq))
    refine ⟨(.simple i, some (.assetJson { a with Owner := o })) :: ws'', ?_, ?_, ?_, ?_⟩
    · rw [hstep, hloop]
      simp
    · intro w hw
      rcases List.mem_cons.mp hw with h1 | h1
      · exact ⟨i, a, h1, hread⟩
      · exact hw'' w h1
    · intro i' a' hmem hread'
      rcases List.mem_cons.mp hmem with h1 | h1
      · have hii : i' = i := by
          obtain ⟨-, h2⟩ := LKey.composite.inj h1
          obtain ⟨-, h3⟩ := List.cons.inj h2
          exact (List.cons.inj h3).1
        subst hii
        have haa : a' = a := by
          rw [hread] at hread'
          exact (StoredValue.assetJson.inj (Option.some.inj hread')).symm
        subst haa
        exact List.mem_cons_self _ _
      · exact List.mem_cons_of_mem _ (hmem'' i' a' h1 hread')
    · simp [SplitCompositeKey, hkeys'']

theorem transferByColorLoop_error {L : Ledger} {o : String} :
    ∀ (entries : List (LKey × StoredValue)) (acc : List WriteOp) {e : CCError}
      {ws : List WriteOp},
    transferByColorLoop L o entries acc = (.error e, ws) →
    ∃ p, p ∈ entries ∧ ∃ i, (SplitCompositeKey p.1).2[1]? = some i ∧
      ReadAsset L i = .error e
  | [], acc, e, ws, h => by
    simp [transferByColorLoop] at h
  | (k, v) :: rest, acc, e, ws, h => by
    by_cases hlen : 1 < (SplitCompositeKey k).2.length
    · simp only [transferByColorLoop] at h
      rw [dif_pos hlen] at h
      cases hra : ReadAsset L ((SplitCompositeKey k).2[1]) with
      | error e' =>
        rw [hra] at h
        have he : e' = e := Except.error.inj (congrArg Prod.fst h)
        subst he
        exact ⟨(k, v), List.mem_cons_self _ _, (SplitCompositeKey k).2[1],
          List.getElem?_eq_getElem hlen, hra⟩
      | ok asset =>
        rw [hra] at h
        obtain ⟨q, hq, hrest⟩ := transferByColorLoop_error rest _ h
        exact ⟨q, List.mem_cons_of_mem _ hq, hrest⟩
    · simp only [transferByColorLoop] at h
      rw [dif_neg hlen] at h
      obtain ⟨q, hq, hrest⟩ := transferByColorLoop_error rest _ h
      exact ⟨q, List.mem_cons_of_mem _ hq, hrest⟩

theorem stateInv_applyTransferWrites {o : String} :
    ∀ (ws : List WriteOp) (L : Ledger), StateInv L →
    (∀ w ∈ ws, ∃ i a, w = (LKey.simple i, some (.assetJson { a with Owner := o })) ∧
        getState L (.simple i) = some (.assetJson a)) →
    (ws.map Prod.fst).Nodup →
    StateInv (applyWrites L ws)
  | [], _, hInv, _, _ => hInv
  | w :: rest, L, hInv, hw, hnd => by
    obtain ⟨i, a, hweq, hread⟩ := hw w (List.mem_cons_self _ _)
    subst hweq
    have hnd' : (LKey.simple i :: rest.map Prod.fst).Nodup := hnd
    obtain ⟨h1, h2⟩ := List.nodup_cons.mp hnd'
    have hstep : StateInv (putState L (.simple i) (.assetJson { a with Owner := o })) :=
      stateInv_transferWrite hInv hread o
    have hrest : ∀ w' ∈ rest, ∃ i' a',
        w' = (LKey.simple i', some (.assetJson { a' with Owner := o })) ∧
        getState (putState L (.simple i) (.assetJson { a with Owner := o }))
          (.simple i') = some (.assetJson a') := by
      intro w' hw'
      obtain ⟨i', a', hweq', hread'⟩ := hw w' (List.mem_cons_of_mem _ hw')
      refine ⟨i', a', hweq', ?_⟩
      rw [getState_putState_ne _ _ _ _ ?_]
      · exact hread'
      · intro he
        refine h1 (he ▸ List.mem_map.mpr ⟨w', hw', ?_⟩)
        rw [hweq']
    exact stateInv_applyTransferWrites rest _ hstep hrest h2

theorem TransferAssetByColor_ok {L : Ledger} (hInv : StateInv L) {c o : String}
    {u : Unit} {ws : List WriteOp}
    (h : TransferAssetByColor L c o = (.ok u, ws)) :
    (∀ w ∈ ws, ∃ i a, w = (LKey.simple i, some (.assetJson { a with Owner := o })) ∧
        getState L (.simple i) = some (.assetJson a)) ∧
    (∀ i a, getState L (.simple i) = some (.assetJson a) → a.Color = c →
        (LKey.simple i, some (StoredValue.assetJson { a with Owner := o })) ∈ ws) ∧
    (ws.map Prod.fst).Nodup := by
  obtain ⟨ws', hloop, hw, hmem, hkeys⟩ :=
    transferByColorLoop_ok o (GetStateByPartialCompositeKey L index [c]) []
      (fun p hp => scan_entry_shape hInv hp)
  have hws : ws = ws' := by
    unfold TransferAssetByColor at h
    rw [hloop] at h
    have := (congrArg Prod.snd h).symm
    simpa using this
  subst hws
  refine ⟨hw, ?_, ?_⟩
  · intro i a hread hColor
    have hidx : (getState L (.composite index [c, i])).isSome :=
      (hInv.corr c i).mpr ⟨a, hread, hColor⟩
    obtain ⟨v, hv⟩ := Option.isSome_iff_exists.mp hidx
    have hkmem : LKey.composite index [c, i] ∈
        (GetStateByPartialCompositeKey L index [c]).map Prod.fst :=
      List.mem_map.mpr ⟨(LKey.composite index [c, i], v), scan_mem_of_getState hv, rfl⟩
    exact hmem i a hkmem hread
  · rw [hkeys]
    have hscan := scan_keys_nodup hInv index ([c])
    rw [show (GetStateByPartialCompositeKey L index [c]).map
        (fun p => LKey.simple ((SplitCompositeKey p.1).2.getD 1 "")) =
        ((GetStateByPartialCompositeKey L index [c]).map Prod.fst).map
        (fun k => LKey.simple ((SplitCompositeKey k).2.getD 1 "")) from by
      rw [List.map_map]
      rfl]
    refine List.Nodup.map_on ?_ hscan
    intro k1 hk1 k2 hk2 heq
    obtain ⟨p1, hp1, hp1k⟩ := List.mem_map.mp hk1
    obtain ⟨p2, hp2, hp2k⟩ := List.mem_map.mp hk2
    obtain ⟨i1, a1, hsh1, -, -, -⟩ := scan_entry_shape hInv hp1
    obtain ⟨i2, a2, hsh2, -, -, -⟩ := scan_entry_shape hInv hp2
    rw [← hp1k, ← hp2k, hsh1, hsh2]
    rw [← hp1k, hsh1] at heq
    rw [← hp2k, hsh2] at heq
    simp only [SplitCompositeKey, List.getD] at heq
    have : i1 = i2 := by
      have h12 := LKey.simple.inj heq
      simpa using h12
    rw [this]

theorem stateInv_TransferAssetByColor {L : Ledger} (hInv : StateInv L)
    {c o : String} {u : Unit} {ws : List WriteOp}
    (h : TransferAssetByColor L c o = (.ok u, ws)) :
    StateInv (applyWrites L ws) := by
  obtain ⟨hw, -, hnd⟩ := TransferAssetByColor_ok hInv h
  exact stateInv_applyTransferWrites ws L hInv hw hnd

theorem stateInv_initLedgerLoop {L : Ledger} :
    ∀ (assets : List Asset) (acc : List WriteOp),
    StateInv (applyWrites L acc) →
    (∀ a ∈ assets, getState (applyWrites L acc) (.simple a.ID) = getState L (.simple a.ID)) →
    (assets.map Asset.ID).Nodup →
    ∀ {u : Unit} {ws : List WriteOp}, initLedgerLoop L assets acc = (.ok u, ws) →
    StateInv (applyWrites L ws)
  | [], acc, hacc, _, _, u, ws, h => by
    have hws : ws = acc := (congrArg Prod.snd h).symm
    rw [hws]
    exact hacc
  | a :: rest, acc, hacc, hunt, hnd, u, ws, h => by
    simp only [initLedgerLoop] at h
    rcases hca : CreateAsset L a.ID a.Color a.Size a.Owner a.AppraisedValue with ⟨res, ws0⟩
    rw [hca] at h
    cases res with
    | error e => simp at h
    | ok u0 =>
      obtain ⟨hnone, hws0⟩ := CreateAsset_ok hca
      have hnd2 : (a.ID :: rest.map Asset.ID).Nodup := hnd
      have hnotin : a.ID ∉ rest.map Asset.ID := (List.nodup_cons.mp hnd2).1
      have hndrest : (rest.map Asset.ID).Nodup := (List.nodup_cons.mp hnd2).2
      have hacc' : StateInv (applyWrites L (acc ++ ws0)) := by
        rw [applyWrites_append, hws0]
        refine stateInv_createWrites hacc a.ID a.Color a.Size a.Owner a.AppraisedValue ?_
        rw [hunt a (List.mem_cons_self _ _)]
        exact hnone
      have hunt' : ∀ b ∈ rest, getState (applyWrites L (acc ++ ws0)) (.simple b.ID) =
          getState L (.simple b.ID) := by
        intro b hb
        rw [applyWrites_append]
        have hne : ∀ w ∈ ws0, w.1 ≠ LKey.simple b.ID := by
          intro w hw
          rw [hws0] at hw
          simp only [List.mem_cons, List.mem_singleton, List.not_mem_nil, or_false] at hw
          rcases hw with rfl | rfl
          · intro he
            refine hnotin ?_
            rw [LKey.simple.inj he]
            exact List.mem_map.mpr ⟨b, hb, rfl⟩
          · exact fun he => LKey.noConfusion he
        rw [getState_applyWrites_of_notMem ws0 _ _ hne]
        exact hunt b (List.mem_cons_of_mem _ hb)
      exact stateInv_initLedgerLoop rest (acc ++ ws0) hacc' hunt' hndrest h

theorem stateInv_InitLedger {L : Ledger} (hInv : StateInv L) {u : Unit}
    {ws : List WriteOp} (h : InitLedger L = (.ok u, ws)) :
    StateInv (applyWrites L ws) := by
  refine stateInv_initLedgerLoop initAssets [] hInv ?_ ?_ h
  · intro a _
    rfl
  · decide

theorem jsonUnmarshal_some {v : StoredValue} {a : Asset}
    (h : jsonUnmarshalAsset v = some a) : v = .assetJson a := by
  cases v with
  | assetJson b => exact congrArg StoredValue.assetJson (Option.some.inj h)
  | bytes bs => exact Option.noConfusion h

theorem getAssetHistory_ok_spec (assetID : String) :
    ∀ (entries : List KeyModification),
    (∀ e ∈ entries, e.IsDelete = !hasValue e.Value) →
    ∀ {records : List HistoryQueryResult},
    GetAssetHistory assetID entries = .ok records →
    records.length = entries.length ∧
    ∀ j (hj : j < entries.length) (hj2 : j < records.length),
      (records.get ⟨j, hj2⟩).TxId = (entries.get ⟨j, hj⟩).TxId ∧
      (records.get ⟨j, hj2⟩).IsDelete = (entries.get ⟨j, hj⟩).IsDelete ∧
      ptypesTimestamp (entries.get ⟨j, hj⟩).Timestamp =
        .ok (records.get ⟨j, hj2⟩).Timestamp ∧
      ((entries.get ⟨j, hj⟩).IsDelete = true →
        (records.get ⟨j, hj2⟩).Record = placeholderAsset assetID) ∧
      ((entries.get ⟨j, hj⟩).IsDelete = false →
        (entries.get ⟨j, hj⟩).Value = .assetJson (records.get ⟨j, hj2⟩).Record)
  | [], _, records, h => by
    have hrec : records = [] := (Except.ok.inj h).symm
    subst hrec
    exact ⟨rfl, fun j hj _ => absurd hj (by simp)⟩
  | e :: rest, hwf, records, h => by
    have hwfe := hwf e (List.mem_cons_self _ _)
    have hwfrest : ∀ e' ∈ rest, e'.IsDelete = !hasValue e'.Value :=
      fun e' he' => hwf e' (List.mem_cons_of_mem _ he')
    simp only [GetAssetHistory] at h
    by_cases hv : hasValue e.Value
    · rw [if_pos hv] at h
      have hdel : e.IsDelete = false := by rw [hwfe, hv]; rfl
      cases hun : jsonUnmarshalAsset e.Value with
      | none =>
        rw [hun] at h
        exact absurd h (by simp)
      | some a =>
        rw [hun] at h
        cases hts : ptypesTimestamp e.Timestamp with
        | error e2 =>
          rw [hts] at h
          exact absurd h (by simp)
        | ok ts =>
          rw [hts] at h
          cases hrest : GetAssetHistory assetID rest with
          | error e3 =>
            rw [hrest] at h
            exact absurd h (by simp)
          | ok recs =>
            rw [hrest] at h
            have hrec : records =
                { Record := a, TxId := e.TxId, Timestamp := ts,
                  IsDelete := e.IsDelete } :: recs :=
              (Except.ok.inj h).symm
            subst hrec
            obtain ⟨ihlen, ihpt⟩ := getAssetHistory_ok_spec assetID rest hwfrest hrest
            refine ⟨by simp [ihlen], ?_⟩
            intro j hj hj2
            cases j with
            | zero =>
              refine ⟨rfl, rfl, hts, ?_, ?_⟩
              · intro hd
                have hd2 : e.IsDelete = true := hd
                rw [hdel] at hd2
                exact absurd hd2 (by simp)
              · intro _
                exact jsonUnmarshal_some hun
            | succ n =>
              exact ihpt n (by simpa using hj) (by simpa using hj2)
    · rw [if_neg hv] at h
      have hdel : e.IsDelete = true := by
        rw [hwfe]
        simp [Bool.not_eq_true'] at hv
        rw [hv]
        rfl
      cases hts : ptypesTimestamp e.Timestamp with
      | error e2 =>
        rw [hts] at h
        exact absurd h (by simp)
      | ok ts =>
        rw [hts] at h
        cases hrest : GetAssetHistory assetID rest with
        | error e3 =>
          rw [hrest] at h
          exact absurd h (by simp)
        | ok recs =>
          rw [hrest] at h
          have hrec : records =
              { Record := placeholderAsset assetID, TxId := e.TxId, Timestamp := ts,
                IsDelete := e.IsDelete } :: recs :=
            (Except.ok.inj h).symm
          subst hrec
          obtain ⟨ihlen, ihpt⟩ := getAssetHistory_ok_spec assetID rest hwfrest hrest
          refine ⟨by simp [ihlen], ?_⟩
          intro j hj hj2
          cases j with
          | zero =>
            refine ⟨rfl, rfl, hts, ?_, ?_⟩
            · intro _
              rfl
            · intro hd
              have hd2 : e.IsDelete = false := hd
              rw [hdel] at hd2
              exact absurd hd2 (by simp)
          | succ n =>
            exact ihpt n (by simpa using hj) (by simpa using hj2)

theorem getAssetHistory_corrupt (assetID : String) :
    ∀ (entries : List KeyModification),
    (∀ e ∈ entries, validTimestamp e.Timestamp = true) →
    (∃ e ∈ entries, hasValue e.Value = true ∧ jsonUnmarshalAsset e.Value = none) →
    GetAssetHistory assetID entries = .error (.serialization assetID)
  | [], _, hex => by
    obtain ⟨e, he, -⟩ := hex
    exact absurd he (by simp)
  | e :: rest, hts, hex => by
    simp only [GetAssetHistory]
    by_cases hv : hasValue e.Value
    · rw [if_pos hv]
      cases hun : jsonUnmarshalAsset e.Value with
      | none => rfl
      | some a =>
        have hex' : ∃ e' ∈ rest, hasValue e'.Value = true ∧
            jsonUnmarshalAsset e'.Value = none := by
          obtain ⟨e', he', hv', hun'⟩ := hex
          rcases List.mem_cons.mp he' with rfl | he'
          · rw [hun] at hun'
            exact absurd hun' (by simp)
          · exact ⟨e', he', hv', hun'⟩
        have ih := getAssetHistory_corrupt assetID rest
          (fun e' he' => hts e' (List.mem_cons_of_mem _ he')) hex'
        rw [show ptypesTimestamp e.Timestamp = .ok e.Timestamp from by
          unfold ptypesTimestamp
          rw [if_pos (hts e (List.mem_cons_self _ _))]]
        rw [ih]
    · rw [if_neg hv]
      have hex' : ∃ e' ∈ rest, hasValue e'.Value = true ∧
          jsonUnmarshalAsset e'.Value = none := by
        obtain ⟨e', he', hv', hun'⟩ := hex
        rcases List.mem_cons.mp he' with rfl | he'
        · exact absurd hv' (by simpa using hv)
        · exact ⟨e', he', hv', hun'⟩
      have ih := getAssetHistory_corrupt assetID rest
        (fun e' he' => hts e' (List.mem_cons_of_mem _ he')) hex'
      rw [show ptypesTimestamp e.Timestamp = .ok e.Timestamp from by
        unfold ptypesTimestamp
        rw [if_pos (hts e (List.mem_cons_self _ _))]]
      rw [ih]

theorem jsonEscapeChars_id : ∀ (cs : List Char),
    (∀ ch ∈ cs, ch ≠ '"' ∧ ch ≠ '\\' ∧ ¬ ch.toNat < 32) →
    jsonEscapeChars cs = cs
  | [], _ => rfl
  | ch :: cs, h => by
    obtain ⟨h1, h2, h3⟩ := h ch (List.mem_cons_self _ _)
    have hrest := jsonEscapeChars_id cs (fun c hc => h c (List.mem_cons_of_mem _ hc))
    simp only [jsonEscapeChars, jsonEscapeChar, if_neg h1, if_neg h2, if_neg h3, hrest]
    rfl

theorem jsonEscape_id {s : String}
    (h : ∀ ch ∈ s.data, ch ≠ '"' ∧ ch ≠ '\\' ∧ ¬ ch.toNat < 32) :
    jsonEscape s = s := by
  unfold jsonEscape
  rw [jsonEscapeChars_id s.data h]

theorem getState_after_create (L : Ledger) (assetID color : String) (size : Int)
    (owner : String) (appraisedValue : Int) :
    getState (applyWrites L
      [(.simple assetID,
        some (.assetJson
          { DocType := "asset", ID := assetID, Color := color, Size := size,
            Owner := owner, AppraisedValue := appraisedValue })),
       (.composite index [color, assetID], some (.bytes [0x00]))])
      (.simple assetID) =
      some (.assetJson
        { DocType := "asset", ID := assetID, Color := color, Size := size,
          Owner := owner, AppraisedValue := appraisedValue }) := by
  show getState (putState (putState L (.simple assetID) _)
    (.composite index [color, assetID]) (.bytes [0x00])) (.simple assetID) = _
  rw [getState_putState_ne _ _ _ _ (fun h => LKey.noConfusion h)]
  exact getState_putState_self _ _ _

/-! ## Claim theorems -/

/-- C1: if `CreateAsset(id, c, s, o, v)` succeeds on a ledger with no record
under `id`, then on the committed post-state `AssetExists(id)` returns `true`
and `ReadAsset(id)` returns an asset with exactly the fields
`docType="asset"`, `ID=id`, `color=c`, `size=s`, `owner=o`,
`appraisedValue=v`. -/
theorem createAsset_readback_spec (L : Ledger) (assetID color : String)
    (size : Int) (owner : String) (appraisedValue : Int) (u : Unit)
    (ws : List WriteOp)
    (_hfresh : getState L (.simple assetID) = none)
    (h : CreateAsset L assetID color size owner appraisedValue = (.ok u, ws)) :
    AssetExists (applyWrites L ws) assetID = .ok true ∧
    ReadAsset (applyWrites L ws) assetID =
      .ok { DocType := "asset", ID := assetID, Color := color, Size := size,
            Owner := owner, AppraisedValue := appraisedValue } := by
  obtain ⟨-, hws⟩ := CreateAsset_ok h
  subst hws
  have hget := getState_after_create L assetID color size owner appraisedValue
  constructor
  · unfold AssetExists
    rw [hget]
    rfl
  · exact ReadAsset_ok_iff.mpr hget

/-- Witness for C1: the concrete creation of `asset1` on the empty ledger. -/
theorem createAsset_readback_spec_witness :
    AssetExists (applyWrites []
      [(LKey.simple "asset1", some (StoredValue.assetJson sampleAsset)),
       (LKey.composite index ["blue", "asset1"], some (StoredValue.bytes [0x00]))])
      "asset1" = .ok true ∧
    ReadAsset (applyWrites []
      [(LKey.simple "asset1", some (StoredValue.assetJson sampleAsset)),
       (LKey.composite index ["blue", "asset1"], some (StoredValue.bytes [0x00]))])
      "asset1" = .ok sampleAsset :=
  createAsset_readback_spec [] "asset1" "blue" 5 "Tomoko" 300 () _ rfl rfl

/-- C3: `CreateAsset` on an existing id fails with the Conflict error and
issues no write at all (its existence probe precedes every write); in
particular a second create of the same id right after a successful first one
fails with Conflict and leaves the stored record unchanged. -/
theorem createAsset_conflict_spec (L : Ledger) (assetID : String) :
    ((getState L (.simple assetID)).isSome = true →
      ∀ (color : String) (size : Int) (owner : String) (appraisedValue : Int),
      CreateAsset L assetID color size owner appraisedValue =
        (.error (.conflict assetID), [])) ∧
    (∀ (color : String) (size : Int) (owner : String) (appraisedValue : Int)
       (u : Unit) (ws : List WriteOp),
      CreateAsset L assetID color size owner appraisedValue = (.ok u, ws) →
      ∀ (color2 : String) (size2 : Int) (owner2 : String) (appraisedValue2 : Int),
      CreateAsset (applyWrites L ws) assetID color2 size2 owner2 appraisedValue2 =
        (.error (.conflict assetID), []) ∧
      ReadAsset (applyWrites L ws) assetID =
        .ok { DocType := "asset", ID := assetID, Color := color, Size := size,
              Owner := owner, AppraisedValue := appraisedValue }) := by
  constructor
  · intro hsome color size owner appraisedValue
    unfold CreateAsset AssetExists
    rw [hsome]
  · intro color size owner appraisedValue u ws h color2 size2 owner2 appraisedValue2
    obtain ⟨-, hws⟩ := CreateAsset_ok h
    subst hws
    have hget := getState_after_create L assetID color size owner appraisedValue
    constructor
    · unfold CreateAsset AssetExists
      rw [hget]
      rfl
    · exact ReadAsset_ok_iff.mpr hget

/-- Witness for C3: a second create of `asset1` immediately after the first
one fails with Conflict and the stored record still reads back unchanged. -/
theorem createAsset_conflict_spec_witness :
    CreateAsset (applyWrites []
      [(LKey.simple "asset1", some (StoredValue.assetJson sampleAsset)),
       (LKey.composite index ["blue", "asset1"], some (StoredValue.bytes [0x00]))])
      "asset1" "red" 9 "Mallory" 1 = (.error (.conflict "asset1"), []) ∧
    ReadAsset (applyWrites []
      [(LKey.simple "asset1", some (StoredValue.assetJson sampleAsset)),
       (LKey.composite index ["blue", "asset1"], some (StoredValue.bytes [0x00]))])
      "asset1" = .ok sampleAsset :=
  (createAsset_conflict_spec [] "asset1").2 "blue" 5 "Tomoko" 300 () _ rfl
    "red" 9 "Mallory" 1

/-- C4: `TransferAsset(id, newOwner)` on a readable record issues exactly one
write, under key `id`, storing the read record with only `Owner` replaced (so
the index and every other key are untouched); on an absent record it fails
with NotFound and writes nothing. -/
theorem transferAsset_frame_spec (L : Ledger) (assetID newOwner : String) :
    (∀ a : Asset, ReadAsset L assetID = .ok a →
      TransferAsset L assetID newOwner =
        (.ok (), [(.simple assetID, some (.assetJson { a with Owner := newOwner }))])) ∧
    (getState L (.simple assetID) = none →
      TransferAsset L assetID newOwner = (.error (.notFound assetID), [])) := by
  constructor
  · intro a hra
    unfold TransferAsset
    rw [hra]
  · intro hnone
    unfold TransferAsset ReadAsset
    rw [hnone]

/-- Witness for C4: transferring `asset1` to Alice on the sample ledger. -/
theorem transferAsset_frame_spec_witness :
    TransferAsset sampleLedger "asset1" "Alice" =
      (.ok (), [(.simple "asset1",
        some (.assetJson { sampleAsset with Owner := "Alice" }))]) ∧
    TransferAsset [] "ghost" "Alice" = (.error (.notFound "ghost"), []) :=
  ⟨(transferAsset_frame_spec sampleLedger "asset1" "Alice").1 sampleAsset rfl,
   (transferAsset_frame_spec [] "ghost" "Alice").2 rfl⟩

/-- C5 counterexample: on a ledger with no key in the queried range,
`GetAssetsByRange` returns Go's nil slice (modelled `none`), which is not the
non-nil empty slice (`some []`) the claim asserts. -/
theorem getAssetsByRange_nil_cex :
    GetAssetsByRange ([] : Ledger) "a" "b" = .ok none ∧
    GetAssetsByRange ([] : Ledger) "a" "b" ≠ .ok (some ([] : List Asset)) :=
  ⟨rfl, fun h => Option.noConfusion (Except.ok.inj h)⟩

/-- C5 amended: for every start and end key such that no ledger key lies in
the queried range, `GetAssetsByRange` succeeds and returns the empty result
slice, which is Go's nil slice (the absent value), not a non-nil empty list. -/
theorem getAssetsByRange_empty_spec (L : Ledger) (startKey endKey : String)
    (hempty : ∀ p ∈ L, inRange startKey endKey p.1 = false) :
    GetAssetsByRange L startKey endKey = .ok none := by
  have hfil : L.filter (fun p => inRange startKey endKey p.1) = [] := by
    rw [List.filter_eq_nil_iff]
    intro p hp
    rw [hempty p hp]
    simp
  unfold GetAssetsByRange GetStateByRange
  rw [hfil]
  rfl

/-- Witness for C5's amended claim on a concrete non-empty ledger. -/
theorem getAssetsByRange_empty_spec_witness :
    GetAssetsByRange sampleLedger "x" "y" = .ok none :=
  getAssetsByRange_empty_spec sampleLedger "x" "y" (by decide)

/-- C10: the secondary-index entry written by every successful `CreateAsset`
is a `PutState` of exactly the single byte `0x00` — a present (non-nil),
non-empty value — so the index key exists in the committed state. -/
theorem createAsset_index_marker_spec (L : Ledger) (assetID color : String)
    (size : Int) (owner : String) (appraisedValue : Int) (u : Unit)
    (ws : List WriteOp)
    (h : CreateAsset L assetID color size owner appraisedValue = (.ok u, ws)) :
    (LKey.composite index [color, assetID], some (StoredValue.bytes [0x00])) ∈ ws ∧
    getState (applyWrites L ws) (.composite index [color, assetID]) =
      some (.bytes [0x00]) ∧
    StoredValue.bytes [0x00] ≠ StoredValue.bytes [] ∧
    ([0x00] : List Nat).length = 1 := by
  obtain ⟨-, hws⟩ := CreateAsset_ok h
  subst hws
  refine ⟨by simp, ?_, by simp, rfl⟩
  exact getState_putState_self _ _ _

/-- Witness for C10 at the concrete creation of `asset1`. -/
theorem createAsset_index_marker_spec_witness :
    (LKey.composite index ["blue", "asset1"], some (StoredValue.bytes [0x00])) ∈
      ([(LKey.simple "asset1", some (StoredValue.assetJson sampleAsset)),
        (LKey.composite index ["blue", "asset1"], some (StoredValue.bytes [0x00]))] :
        List WriteOp) ∧
    getState (applyWrites []
      [(LKey.simple "asset1", some (StoredValue.assetJson sampleAsset)),
       (LKey.composite index ["blue", "asset1"], some (StoredValue.bytes [0x00]))])
      (.composite index ["blue", "asset1"]) = some (.bytes [0x00]) ∧
    StoredValue.bytes [0x00] ≠ StoredValue.bytes [] ∧
    ([0x00] : List Nat).length = 1 :=
  createAsset_index_marker_spec [] "asset1" "blue" 5 "Tomoko" 300 () _ rfl

/-- C6 counterexample: for the one-character owner string `"` (a double
quote), the query string `QueryAssetsByOwner` builds is not the well-formed
selector whose owner predicate is that string — the owner is spliced in with
no JSON escaping. -/
theorem ownerQuery_unescaped_cex :
    ownerQueryString "\"" ≠ specOwnerSelector "\"" := by
  decide

/-- C6 amended: for every owner string free of JSON string metacharacters
(double quote, backslash, control characters), `QueryAssetsByOwner` passes to
the ad-hoc query path exactly the well-formed selector whose predicate is
`docType == "asset" AND owner == <owner>`, and returns whatever that path
returns; owners containing such characters are spliced in unescaped. -/
theorem ownerQuery_escaped_spec (owner : String)
    (hsafe : ∀ ch ∈ owner.data, ch ≠ '"' ∧ ch ≠ '\\' ∧ ¬ ch.toNat < 32) :
    ownerQueryString owner = specOwnerSelector owner ∧
    ∀ rq : RichQuery, QueryAssetsByOwner rq owner =
      getQueryResultForQueryString rq (ownerQueryString owner) := by
  constructor
  · unfold ownerQueryString specOwnerSelector
    rw [jsonEscape_id hsafe]
  · intro rq
    rfl

/-- Witness for C6's amended claim at the concrete owner `Tomoko`. -/
theorem ownerQuery_escaped_spec_witness :
    ownerQueryString "Tomoko" = specOwnerSelector "Tomoko" :=
  (ownerQuery_escaped_spec "Tomoko" (by decide)).1

/-- C2: from any state satisfying the secondary-index invariant, every exposed
operation that completes without error — CreateAsset, ReadAsset,
TransferAsset, DeleteAsset, TransferAssetByColor, InitLedger — leaves a
committed state satisfying it again: index entries under `color~name` for any
color correspond one-to-one with the existing assets of that color. -/
theorem stateInv_preserved_spec (L : Ledger) (hInv : StateInv L) :
    (∀ (assetID color : String) (size : Int) (owner : String)
        (appraisedValue : Int) (u : Unit) (ws : List WriteOp),
      CreateAsset L assetID color size owner appraisedValue = (.ok u, ws) →
      StateInv (applyWrites L ws)) ∧
    (∀ (assetID : String) (a : Asset), ReadAsset L assetID = .ok a → StateInv L) ∧
    (∀ (assetID newOwner : String) (u : Unit) (ws : List WriteOp),
      TransferAsset L assetID newOwner = (.ok u, ws) → StateInv (applyWrites L ws)) ∧
    (∀ (assetID : String) (u : Unit) (ws : List WriteOp),
      DeleteAsset L assetID = (.ok u, ws) → StateInv (applyWrites L ws)) ∧
    (∀ (color newOwner : String) (u : Unit) (ws : List WriteOp),
      TransferAssetByColor L color newOwner = (.ok u, ws) →
      StateInv (applyWrites L ws)) ∧
    (∀ (u : Unit) (ws : List WriteOp),
      InitLedger L = (.ok u, ws) → StateInv (applyWrites L ws)) :=
  ⟨fun _ _ _ _ _ _ _ h => stateInv_CreateAsset hInv h,
   fun _ _ _ => hInv,
   fun _ _ _ _ h => stateInv_TransferAsset hInv h,
   fun _ _ _ h => stateInv_DeleteAsset hInv h,
   fun _ _ _ _ h => stateInv_TransferAssetByColor hInv h,
   fun _ _ h => stateInv_InitLedger hInv h⟩

/-- Witness for C2: creating `asset1` on the empty ledger yields an invariant
state. -/
theorem stateInv_preserved_spec_witness : StateInv sampleLedger :=
  (stateInv_preserved_spec [] stateInv_nil).1 "asset1" "blue" 5 "Tomoko" 300 ()
    [(LKey.simple "asset1", some (StoredValue.assetJson sampleAsset)),
     (LKey.composite index ["blue", "asset1"], some (StoredValue.bytes [0x00]))] rfl

/-- C8: in an invariant state, when `TransferAssetByColor(color, newOwner)`
succeeds, every stored asset of that color has been rewritten with only its
owner replaced and no composite (index) key was added, removed, or modified;
and when it fails, the error is a read (NotFound) or deserialization failure
of an asset named by the index prefix scan for that color, propagated as-is.
Ledger write failures do not arise in this deterministic ledger model. -/
theorem transferAssetByColor_spec (L : Ledger) (color newOwner : String) :
    (StateInv L →
      ∀ (u : Unit) (ws : List WriteOp),
      TransferAssetByColor L color newOwner = (.ok u, ws) →
      (∀ (i : String) (a : Asset),
        getState L (.simple i) = some (.assetJson a) → a.Color = color →
        getState (applyWrites L ws) (.simple i) =
          some (.assetJson { a with Owner := newOwner })) ∧
      (∀ (ot : String) (attrs : List String),
        getState (applyWrites L ws) (.composite ot attrs) =
          getState L (.composite ot attrs))) ∧
    (∀ (e : CCError) (ws : List WriteOp),
      TransferAssetByColor L color newOwner = (.error e, ws) →
      ∃ i, ReadAsset L i = .error e ∧
        (e = .notFound i ∨ e = .serialization i) ∧
        ∃ p ∈ GetStateByPartialCompositeKey L index [color],
          (SplitCompositeKey p.1).2[1]? = some i) := by
  constructor
  · intro hInv u ws h
    obtain ⟨hw, hmem, hnd⟩ := TransferAssetByColor_ok hInv h
    constructor
    · intro i a hread hColor
      exact getState_applyWrites_of_mem ws L _ _ hnd (hmem i a hread hColor)
    · intro ot attrs
      refine getState_applyWrites_of_notMem ws L _ ?_
      intro w hwmem
      obtain ⟨i', a', hweq, -⟩ := hw w hwmem
      rw [hweq]
      exact fun he => LKey.noConfusion he
  · intro e ws h
    have h2 : transferByColorLoop L newOwner
        (GetStateByPartialCompositeKey L index [color]) [] = (.error e, ws) := h
    obtain ⟨p, hp, i, hgi, hre⟩ := transferByColorLoop_error
      (GetStateByPartialCompositeKey L index [color]) [] h2
    exact ⟨i, hre, ReadAsset_error_cases hre, p, hp, hgi⟩

/-- Witness for C8: transferring all blue assets of the sample ledger to
Alice rewrites `asset1` with only its owner changed. -/
theorem transferAssetByColor_spec_witness :
    getState (applyWrites sampleLedger
      [(LKey.simple "asset1",
        some (StoredValue.assetJson { sampleAsset with Owner := "Alice" }))])
      (.simple "asset1") =
      some (.assetJson { sampleAsset with Owner := "Alice" }) := by
  have hInv : StateInv sampleLedger :=
    stateInv_CreateAsset stateInv_nil
      (rfl : CreateAsset [] "asset1" "blue" 5 "Tomoko" 300 =
        (.ok (), [(LKey.simple "asset1", some (StoredValue.assetJson sampleAsset)),
          (LKey.composite index ["blue", "asset1"], some (StoredValue.bytes [0x00]))]))
  exact ((transferAssetByColor_spec sampleLedger "blue" "Alice").1 hInv ()
    [(LKey.simple "asset1",
      some (StoredValue.assetJson { sampleAsset with Owner := "Alice" }))] rfl).1
    "asset1" sampleAsset rfl rfl

/-- C9: over history-iterator entries satisfying the host contract that
exactly the delete entries carry no value, `GetAssetHistory` yields one
result per entry in the iterator's order, carrying the entry's transaction
id, converted timestamp and delete flag, with a placeholder record holding
only the id for deletes and the deserialized stored value otherwise; a
corrupt non-delete value fails the whole call with a serialization error. -/
theorem getAssetHistory_spec (assetID : String) (entries : List KeyModification)
    (hwf : ∀ e ∈ entries, e.IsDelete = !hasValue e.Value) :
    (∀ records, GetAssetHistory assetID entries = .ok records →
      records.length = entries.length ∧
      ∀ j (hj : j < entries.length) (hj2 : j < records.length),
        (records.get ⟨j, hj2⟩).TxId = (entries.get ⟨j, hj⟩).TxId ∧
        (records.get ⟨j, hj2⟩).IsDelete = (entries.get ⟨j, hj⟩).IsDelete ∧
        ptypesTimestamp (entries.get ⟨j, hj⟩).Timestamp =
          .ok (records.get ⟨j, hj2⟩).Timestamp ∧
        ((entries.get ⟨j, hj⟩).IsDelete = true →
          (records.get ⟨j, hj2⟩).Record = placeholderAsset assetID) ∧
        ((entries.get ⟨j, hj⟩).IsDelete = false →
          (entries.get ⟨j, hj⟩).Value = .assetJson (records.get ⟨j, hj2⟩).Record)) ∧
    ((∀ e ∈ entries, validTimestamp e.Timestamp = true) →
      (∃ e ∈ entries, e.IsDelete = false ∧ jsonUnmarshalAsset e.Value = none) →
      GetAssetHistory assetID entries = .error (.serialization assetID)) := by
  constructor
  · intro records h
    exact getAssetHistory_ok_spec assetID entries hwf h
  · intro hts hex
    refine getAssetHistory_corrupt assetID entries hts ?_
    obtain ⟨e, he, hdel, hun⟩ := hex
    refine ⟨e, he, ?_, hun⟩
    have hc := hwf e he
    rw [hdel] at hc
    cases hhv : hasValue e.Value
    · rw [hhv] at hc
      simp at hc
    · rfl

/-- Witness for C9 on the concrete two-entry history of `asset1`. -/
theorem getAssetHistory_spec_witness :
    sampleHistRecords.length = sampleHistEntries.length :=
  ((getAssetHistory_spec "asset1" sampleHistEntries (by decide)).1
    sampleHistRecords rfl).1

/-- C7: `InitLedger` calls `CreateAsset` in order for exactly the six literal
seed assets (`asset1`..`asset6` with the fixed colors, sizes, owners and
values of `initAssets`): when none of them exists it succeeds with precisely
their twelve creation writes in order, and when the `k`-th seed id is the
first that already exists it returns that Conflict error having issued only
the writes of the `k` creates before it (no create runs past the failure). -/
theorem initLedger_spec (L : Ledger) :
    ((∀ a ∈ initAssets, getState L (.simple a.ID) = none) →
      InitLedger L = (.ok (), initWrites)) ∧
    (∀ k : Nat, k < 6 →
      (∀ j : Nat, j < k →
        getState L (.simple ((initAssets.getD j (placeholderAsset "")).ID)) = none) →
      (getState L (.simple ((initAssets.getD k (placeholderAsset "")).ID))).isSome = true →
      InitLedger L =
        (.error (.conflict ((initAssets.getD k (placeholderAsset "")).ID)),
         initWrites.take (2 * k))) := by
  constructor
  · intro hall
    have h1 : getState L (.simple "asset1") = none :=
      hall { DocType := "asset", ID := "asset1", Color := "blue", Size := 5,
             Owner := "Tomoko", AppraisedValue := 300 } (by decide)
    have h2 : getState L (.simple "asset2") = none :=
      hall { DocType := "asset", ID := "asset2", Color := "red", Size := 5,
             Owner := "Brad", AppraisedValue := 400 } (by decide)
    have h3 : getState L (.simple "asset3") = none :=
      hall { DocType := "asset", ID := "asset3", Color := "green", Size := 10,
             Owner := "Jin Soo", AppraisedValue := 500 } (by decide)
    have h4 : getState L (.simple "asset4") = none :=
      hall { DocType := "asset", ID := "asset4", Color := "yellow", Size := 10,
             Owner := "Max", AppraisedValue := 600 } (by decide)
    have h5 : getState L (.simple "asset5") = none :=
      hall { DocType := "asset", ID := "asset5", Color := "black", Size := 15,
             Owner := "Adriana", AppraisedValue := 700 } (by decide)
    have h6 : getState L (.simple "asset6") = none :=
      hall { DocType := "asset", ID := "asset6", Color := "white", Size := 15,
             Owner := "Michel", AppraisedValue := 800 } (by decide)
    show initLedgerLoop L initAssets [] = (.ok (), initWrites)
    simp only [initAssets, initLedgerLoop, CreateAsset, AssetExists,
      h1, h2, h3, h4, h5, h6, Option.isSome_none]
    rfl
  · intro k hk hpre hcur
    interval_cases k
    · have hc : (getState L (.simple "asset1")).isSome = true := hcur
      show initLedgerLoop L initAssets [] = _
      simp only [initAssets, initLedgerLoop, CreateAsset, AssetExists, hc]
      rfl
    · have p0 : getState L (.simple "asset1") = none := hpre 0 (by norm_num)
      have hc : (getState L (.simple "asset2")).isSome = true := hcur
      show initLedgerLoop L initAssets [] = _
      simp only [initAssets, initLedgerLoop, CreateAsset, AssetExists, p0, hc,
        Option.isSome_none]
      rfl
    · have p0 : getState L (.simple "asset1") = none := hpre 0 (by norm_num)
      have p1 : getState L (.simple "asset2") = none := hpre 1 (by norm_num)
      have hc : (getState L (.simple "asset3")).isSome = true := hcur
      show initLedgerLoop L initAssets [] = _
      simp only [initAssets, initLedgerLoop, CreateAsset, AssetExists, p0, p1, hc,
        Option.isSome_none]
      rfl
    · have p0 : getState L (.simple "asset1") = none := hpre 0 (by norm_num)
      have p1 : getState L (.simple "asset2") = none := hpre 1 (by norm_num)
      have p2 : getState L (.simple "asset3") = none := hpre 2 (by norm_num)
      have hc : (getState L (.simple "asset4")).isSome = true := hcur
      show initLedgerLoop L initAssets [] = _
      simp only [initAssets, initLedgerLoop, CreateAsset, AssetExists, p0, p1, p2, hc,
        Option.isSome_none]
      rfl
    · have p0 : getState L (.simple "asset1") = none := hpre 0 (by norm_num)
      have p1 : getState L (.simple "asset2") = none := hpre 1 (by norm_num)
      have p2 : getState L (.simple "asset3") = none := hpre 2 (by norm_num)
      have p3 : getState L (.simple "asset4") = none := hpre 3 (by norm_num)
      have hc : (getState L (.simple "asset5")).isSome = true := hcur
      show initLedgerLoop L initAssets [] = _
      simp only [initAssets, initLedgerLoop, CreateAsset, AssetExists, p0, p1, p2, p3,
        hc, Option.isSome_none]
      rfl
    · have p0 : getState L (.simple "asset1") = none := hpre 0 (by norm_num)
      have p1 : getState L (.simple "asset2") = none := hpre 1 (by norm_num)
      have p2 : getState L (.simple "asset3") = none := hpre 2 (by norm_num)
      have p3 : getState L (.simple "asset4") = none := hpre 3 (by norm_num)
      have p4 : getState L (.simple "asset5") = none := hpre 4 (by norm_num)
      have hc : (getState L (.simple "asset6")).isSome = true := hcur
      show initLedgerLoop L initAssets [] = _
      simp only [initAssets, initLedgerLoop, CreateAsset, AssetExists, p0, p1, p2, p3,
        p4, hc, Option.isSome_none]
      rfl

/-- Witness for C7: success on the empty ledger, and first-conflict at the
third seed asset when only `asset3` pre-exists. -/
theorem initLedger_spec_witness :
    InitLedger [] = (.ok (), initWrites) ∧
    InitLedger [(LKey.simple "asset3", StoredValue.bytes [1])] =
      (.error (.conflict "asset3"), initWrites.take 4) :=
  ⟨(initLedger_spec []).1 (by decide),
   (initLedger_spec [(LKey.simple "asset3", StoredValue.bytes [1])]).2 2
     (by norm_num) (by decide) (by decide)⟩
